import Mathlib

/-!
Verification of the blockchain storage engine (`storage.c`) of the
BlockChain-Simulation repository.

The engine is shallowly embedded: the C globals of `storage.c` become the
fields of a `Storage` record, and each C function becomes a Lean function on
that record.  C `unsigned int` / `unsigned char` / `unsigned long long`
values are modelled as `Nat`; the single place where 32-bit wrap-around is
semantically relevant (the multiplicative nonce hash) carries an explicit
`% 2 ^ 32`.  Elsewhere the engine's documented workload (30,000 blocks,
byte-sized transaction values, reward 50) keeps every counter far below
2 ^ 32, and `unsigned char` payload bytes are below 256, which the
well-formedness predicates below make explicit where a proof needs it.
The on-disk file is modelled both at record granularity (the `arquivo`
field) and, for reconstruction, as a raw byte list decoded 256 bytes at a
time exactly as `fread` with element size `sizeof(BlocoMinerado) = 256`
delivers whole records and drops a trailing fragment.
-/

set_option maxRecDepth 100000

namespace BlockSim

/-- `BUFFER_SIZE` from storage.c: blocks buffered in memory before a flush. -/
def BUFFER_SIZE : Nat := 16

/-- `HASH_BITS` from storage.c: the nonce hash table has `2 ^ HASH_BITS` slots. -/
def HASH_BITS : Nat := 14

/-- `TAM_HASH = 1 << HASH_BITS` from storage.c. -/
def TAM_HASH : Nat := 2 ^ HASH_BITS

/-- `SHIFT_AMOUNT = 32 - HASH_BITS` from storage.c. -/
def SHIFT_AMOUNT : Nat := 32 - HASH_BITS

/-- `KNUTH_CONST` from storage.c: multiplicative hashing constant. -/
def KNUTH_CONST : Nat := 2654435761

/-- `MINERADOR_OFFSET` from storage.c: position of the miner byte in `data`. -/
def MINERADOR_OFFSET : Nat := 183

/-- `MAX_TRANSACOES` from storage.c: at most 61 transactions per block. -/
def MAX_TRANSACOES : Nat := 61

/-- `NUM_ENDERECOS` from storage.c: 256 possible addresses. -/
def NUM_ENDERECOS : Nat := 256

/-- A mined block (`BlocoMinerado` of structs.h, with the nested
`BlocoNaoMinerado` flattened).  The C struct layout, in declaration order,
is `hash[32] | numero (u32) | nonce (u32) | data[184] | hashAnterior[32]`,
256 bytes in total.  Byte arrays are byte lists, `u32` fields are `Nat`. -/
structure BlocoMinerado where
  hash : List Nat
  numero : Nat
  nonce : Nat
  data : List Nat
  hashAnterior : List Nat
deriving DecidableEq, Repr, Inhabited

/-- The engine state: the file-scope globals of storage.c.  `tabelaNonce`
maps a bucket to its chain of `(nonce, idBloco)` nodes (prepend on insert);
`indiceMinerador` maps an address to its block-id list read head to tail
(the separate `fimMinerador` tail pointers make the C insertion an O(1)
append, modelled here as a list append); `cache` is `cacheContagemTx`
restricted to its first `cacheTamanho` entries (the extra zero-initialised
capacity is observationally invisible and reappears as zero padding in
`adicionarAoCache`); `arquivo` is the record content of the open file and
`buffer` the pending write buffer (`contadorBuffer` is its length). -/
structure Storage where
  tabelaNonce : Nat → List (Nat × Nat)
  indiceMinerador : Nat → List Nat
  saldos : Nat → Nat
  blocosMinerados : Nat → Nat
  totalValorTransacionado : Nat
  maiorSaldoAtual : Nat
  maiorQtdMinerada : Nat
  maxTransacoesGlobal : Int
  listaMaxTx : List Nat
  minTransacoesGlobal : Int
  listaMinTx : List Nat
  arquivo : List BlocoMinerado
  buffer : List BlocoMinerado
  totalBlocos : Nat
  cache : List Nat

/-- The state right after `resetarIndices` (equally: after opening a fresh
file): empty indices, zero balances, `maxTransacoesGlobal = -1`,
`minTransacoesGlobal = 1000`. -/
def estadoInicial : Storage :=
  { tabelaNonce := fun _ => []
    indiceMinerador := fun _ => []
    saldos := fun _ => 0
    blocosMinerados := fun _ => 0
    totalValorTransacionado := 0
    maiorSaldoAtual := 0
    maiorQtdMinerada := 0
    maxTransacoesGlobal := -1
    listaMaxTx := []
    minTransacoesGlobal := 1000
    listaMinTx := []
    arquivo := []
    buffer := []
    totalBlocos := 0
    cache := [] }

/-- `hashFunction` from storage.c: `(nonce * KNUTH_CONST) >> SHIFT_AMOUNT`
computed on `unsigned int`, hence the product is reduced mod `2 ^ 32`
before the right shift. -/
def hashFunction (nonce : Nat) : Nat :=
  (nonce * KNUTH_CONST % 2 ^ 32) / 2 ^ SHIFT_AMOUNT

/-- `inserirNonce` from storage.c: prepend a `(nonce, idBloco)` node to the
bucket `hashFunction nonce`. -/
def inserirNonce (nonce idBloco : Nat) (s : Storage) : Storage :=
  let pos := hashFunction nonce
  { s with tabelaNonce :=
      (Function.update s.tabelaNonce pos ((nonce, idBloco) :: s.tabelaNonce pos)) }

/-- `inserirMinerador` from storage.c: append `idBloco` at the tail of the
list of `endereco` (the C code links the new node after `fimMinerador`). -/
def inserirMinerador (endereco idBloco : Nat) (s : Storage) : Storage :=
  { s with indiceMinerador :=
      (Function.update s.indiceMinerador endereco
        (s.indiceMinerador endereco ++ [idBloco])) }

/-- The index sequence `0, 3, 6, …, 180` of the transaction scan loop
`for (i = 0; i < MINERADOR_OFFSET; i += 3)` in storage.c. -/
def txOffsets : List Nat := List.range' 0 61 3

/-- The transaction scan of `atualizarEstatisticasGlobais` (storage.c lines
231-249), as a recursion over the remaining loop indices.  The accumulator
carries `(saldos, totalValorTransacionado, txNoBloco)`.  A triple with
`valor > 0` is applied iff the origin balance covers it; a `(0,0,0)` triple
stops the scan; any other zero-value triple is skipped. -/
def scanTx (data : List Nat) : List Nat → ((Nat → Nat) × Nat × Nat) → ((Nat → Nat) × Nat × Nat)
  | [], acc => acc
  | i :: rest, (saldos, valorTot, tx) =>
    let origem := data.getD i 0
    let destino := data.getD (i + 1) 0
    let valor := data.getD (i + 2) 0
    if 0 < valor then
      if valor ≤ saldos origem then
        let saldos1 := Function.update saldos origem (saldos origem - valor)
        let saldos2 := Function.update saldos1 destino (saldos1 destino + valor)
        scanTx data rest (saldos2, valorTot + valor, tx + 1)
      else
        scanTx data rest (saldos, valorTot, tx)
    else if origem = 0 ∧ destino = 0 then (saldos, valorTot, tx)
    else scanTx data rest (saldos, valorTot, tx)

/-- The `if (b->bloco.numero > 1)` guard around the transaction scan: the
genesis block is never scanned and contributes `txNoBloco = 0`. -/
def contarEProcessar (b : BlocoMinerado) (saldos : Nat → Nat) (valorTot : Nat) :
    (Nat → Nat) × Nat × Nat :=
  if 1 < b.numero then scanTx b.data txOffsets (saldos, valorTot, 0)
  else (saldos, valorTot, 0)

/-- `adicionarAoCache` from storage.c, faithful for `idBloco ≥ 1`: `cache`
is the first `cacheTamanho` entries of `cacheContagemTx`; writing at a
fresh id beyond the current size raises the size to that id, with the
intervening entries zero (the C code zero-initialises every grown capacity
region).  At `idBloco = 0` the C code skips the expansion loop
(`0 > cacheCapacidade` is false) and writes
`cacheContagemTx[(unsigned)0 - 1]` — index `2^32 - 1`, through a pointer
that is NULL right after `resetarIndices`: an out-of-bounds write,
undefined behavior, in practice a crash.  This total function has no
faithful value there (its `0 - 1` saturates to 0); the crash itself is
modelled by `reconstruirLoopSeguro` below, and every theorem whose inputs
could reach `idBloco = 0` must either carry a nonzero-block-number
hypothesis or go through that crash-aware path. -/
def adicionarAoCache (cache : List Nat) (idBloco qtdTx : Nat) : List Nat :=
  if idBloco ≤ cache.length then cache.set (idBloco - 1) qtdTx
  else cache ++ List.replicate (idBloco - cache.length - 1) 0 ++ [qtdTx]

/-- `obterContagemDoCache` from storage.c: 0 for `idBloco = 0` or an id
beyond `cacheTamanho`, otherwise the cached count. -/
def obterContagemDoCache (cache : List Nat) (idBloco : Nat) : Nat :=
  if idBloco = 0 ∨ cache.length < idBloco then 0 else cache.getD (idBloco - 1) 0

/-- Step 4 of `atualizarEstatisticasGlobais` in storage.c: the max-record
update.  `if (txNoBloco > maxTransacoesGlobal)` frees the tie list and
reseeds it with this block; `else if (txNoBloco == maxTransacoesGlobal &&
maxTransacoesGlobal >= 0)` prepends (`adicionarRecorde` inserts at the
head).  `maxTransacoesGlobal` is a C `int` initialised to `-1`, hence
`Int`. -/
def recordeMax (txNoBloco numero : Nat) (recorde : Int) (lista : List Nat) :
    Int × List Nat :=
  if recorde < (txNoBloco : Int) then ((txNoBloco : Int), [numero])
  else if (txNoBloco : Int) = recorde ∧ 0 ≤ recorde then (recorde, numero :: lista)
  else (recorde, lista)

/-- Step 5 of `atualizarEstatisticasGlobais` in storage.c: the min-record
update, executed only for non-genesis blocks (`numero > 1`);
`minTransacoesGlobal` starts at the sentinel 1000. -/
def recordeMin (txNoBloco numero : Nat) (recorde : Int) (lista : List Nat) :
    Int × List Nat :=
  if 1 < numero then
    (if (txNoBloco : Int) < recorde then ((txNoBloco : Int), [numero])
     else if (txNoBloco : Int) = recorde then (recorde, numero :: lista)
     else (recorde, lista))
  else (recorde, lista)

/-- `atualizarEstatisticasGlobais` from storage.c: miner reward and mined
count first (together with the two running maxima), then the transaction
scan (skipped for the genesis block), then the transaction-count cache,
then the max-transactions record list, then (for non-genesis blocks only)
the min-transactions record list.  `adicionarRecorde` prepends;
`liberarListaRecorde` followed by `adicionarRecorde` reseeds the list. -/
def atualizarEstatisticasGlobais (b : BlocoMinerado) (s : Storage) : Storage :=
  let minerador := b.data.getD MINERADOR_OFFSET 0
  let saldos1 := Function.update s.saldos minerador (s.saldos minerador + 50)
  let minerados1 := Function.update s.blocosMinerados minerador (s.blocosMinerados minerador + 1)
  let maiorSaldo1 := if s.maiorSaldoAtual < saldos1 minerador then saldos1 minerador
                     else s.maiorSaldoAtual
  let maiorQtd1 := if s.maiorQtdMinerada < minerados1 minerador then minerados1 minerador
                   else s.maiorQtdMinerada
  let scanRes := contarEProcessar b saldos1 s.totalValorTransacionado
  let txNoBloco := scanRes.2.2
  let cache2 := adicionarAoCache s.cache b.numero txNoBloco
  let maxPair := recordeMax txNoBloco b.numero s.maxTransacoesGlobal s.listaMaxTx
  let minPair := recordeMin txNoBloco b.numero s.minTransacoesGlobal s.listaMinTx
  { s with
      saldos := scanRes.1
      blocosMinerados := minerados1
      totalValorTransacionado := scanRes.2.1
      maiorSaldoAtual := maiorSaldo1
      maiorQtdMinerada := maiorQtd1
      cache := cache2
      maxTransacoesGlobal := maxPair.1
      listaMaxTx := maxPair.2
      minTransacoesGlobal := minPair.1
      listaMinTx := minPair.2 }

/-- The index/aggregate update sequence shared by `adicionarBloco` and
`reconstruirIndicesDoDisco` in storage.c: `inserirNonce`,
`inserirMinerador` (at the miner byte `data[MINERADOR_OFFSET]`),
`atualizarEstatisticasGlobais`, all with the given block id. -/
def indexarRegistro (idBloco : Nat) (b : BlocoMinerado) (s : Storage) : Storage :=
  atualizarEstatisticasGlobais b
    (inserirMinerador (b.data.getD MINERADOR_OFFSET 0) idBloco
      (inserirNonce b.nonce idBloco s))

/-- `flushBuffer` from storage.c: with a non-empty buffer (and the file
open, which holds throughout the lifecycle modelled here), seek to the end
of the log, write the buffered records in one `fwrite`, and reset the
buffer counter. -/
def flushBuffer (s : Storage) : Storage :=
  if s.buffer.length ≠ 0 then { s with arquivo := s.arquivo ++ s.buffer, buffer := [] }
  else s

/-- `adicionarBloco` from storage.c: increment `totalBlocos`, run the
shared index updates with the new total as the block id, place the record
in the next buffer slot, and flush exactly when the buffer reaches
`BUFFER_SIZE`. -/
def adicionarBloco (b : BlocoMinerado) (s : Storage) : Storage :=
  let s1 := indexarRegistro (s.totalBlocos + 1) b { s with totalBlocos := s.totalBlocos + 1 }
  let s2 := { s1 with buffer := s1.buffer ++ [b] }
  if s2.buffer.length = BUFFER_SIZE then flushBuffer s2 else s2

/-- `lerBlocoPorId` (= `buscarBlocoPorId`) from storage.c.  Failure
(`return 0`, output untouched) is `none`.  Ids above the persisted count
are served from the buffer; the rest by `fseek` to `(id-1) * 256` and one
record `fread`, which on the record-granular file is exactly entry
`id - 1`. -/
def lerBlocoPorId (id : Nat) (s : Storage) : Option BlocoMinerado :=
  if id < 1 ∨ s.totalBlocos < id then none
  else
    let blocosPersistidos := s.totalBlocos - s.buffer.length
    if blocosPersistidos < id then s.buffer[id - blocosPersistidos - 1]?
    else s.arquivo[id - 1]?

/-- `getUltimoHash` from storage.c: an empty chain yields 32 zero bytes
(`memset(bufferHash, 0, SHA256_DIGEST_LENGTH)`); otherwise the hash of
record `totalBlocos` is copied (with the same zero fallback on a failed
read). -/
def getUltimoHash (s : Storage) : List Nat :=
  if s.totalBlocos = 0 then List.replicate 32 0
  else
    match lerBlocoPorId s.totalBlocos s with
    | some ultimo => ultimo.hash
    | none => List.replicate 32 0

/-- `listarBlocosPorNonce` from storage.c, as the list of block ids it
prints: walk the bucket `hashFunction nonce` and keep the ids of the nodes
whose nonce matches exactly. -/
def listarBlocosPorNonce (nonce : Nat) (s : Storage) : List Nat :=
  ((s.tabelaNonce (hashFunction nonce)).filter (fun p => p.1 == nonce)).map (fun p => p.2)

/-- The state after opening an empty engine and appending the records of
`rs` in order via `adicionarBloco`. -/
def appendAll (rs : List BlocoMinerado) : Storage :=
  rs.foldl (fun s b => adicionarBloco b s) estadoInicial

/-- The record-processing loop of `reconstruirIndicesDoDisco` in
storage.c: each record in file order gets `idCalculado = 1, 2, …`, goes
through the shared index updates, and `stats.totalBlocos` is set to the id
just processed.  (The `READ_LOTE`-sized batching of `fread` only amortises
I/O; the per-record processing order is unchanged.) -/
def reconstruirLoop : List BlocoMinerado → Nat → Storage → Storage
  | [], _, s => s
  | b :: rest, idCalculado, s =>
      reconstruirLoop rest (idCalculado + 1)
        { indexarRegistro idCalculado b s with totalBlocos := idCalculado }

/-- `reconstruirIndicesDoDisco` from storage.c, starting from id 1. -/
def reconstruirIndicesDoDisco (registros : List BlocoMinerado) (s : Storage) : Storage :=
  reconstruirLoop registros 1 s

/-- Little-endian `u32` read of the first four bytes, as the x86 in-memory
layout of the C `unsigned int` fields. -/
def bytesToU32 (l : List Nat) : Nat :=
  l.getD 0 0 + 256 * l.getD 1 0 + 65536 * l.getD 2 0 + 16777216 * l.getD 3 0

/-- Little-endian `u32` write. -/
def u32ToBytes (n : Nat) : List Nat :=
  [n % 256, n / 256 % 256, n / 65536 % 256, n / 16777216 % 256]

/-- Decode one 256-byte record at the C struct offsets: `hash` at 0,
`numero` at 32, `nonce` at 36, `data` at 40, `hashAnterior` at 224. -/
def decodeRecord (bytes : List Nat) : BlocoMinerado :=
  { hash := bytes.take 32
    numero := bytesToU32 (bytes.drop 32)
    nonce := bytesToU32 (bytes.drop 36)
    data := (bytes.drop 40).take 184
    hashAnterior := (bytes.drop 224).take 32 }

/-- Encode a record into its 256-byte struct layout. -/
def encodeRecord (b : BlocoMinerado) : List Nat :=
  b.hash ++ (u32ToBytes b.numero ++ (u32ToBytes b.nonce ++ (b.data ++ b.hashAnterior)))

/-- A whole file of encoded records, concatenated without framing. -/
def encodeFile (rs : List BlocoMinerado) : List Nat :=
  (rs.map encodeRecord).flatten

/-- The 256-byte chunks `fread` with element size 256 delivers from a raw
byte file: whole records only, in order; a trailing fragment shorter than
256 bytes is never returned (its bytes are not part of any element). -/
def fileRecords (bytes : List Nat) : List (List Nat) :=
  if h : 256 ≤ bytes.length then
    bytes.take 256 :: fileRecords (bytes.drop 256)
  else []
termination_by bytes.length
decreasing_by simp only [List.length_drop]; omega

/-- `inicializarStorage` from storage.c on an existing file with the given
raw bytes: reset all indices, then rebuild them from the whole records of
the file.  The `arquivo` field holds those records: every read the engine
ever issues is at an offset `(id - 1) * 256` with `id ≤ totalBlocos`, so
only the whole-record region of the file is ever addressed. -/
def inicializarStorage (bytes : List Nat) : Storage :=
  let registros := (fileRecords bytes).map decodeRecord
  reconstruirIndicesDoDisco registros { estadoInicial with arquivo := registros }

/-- The reconstruction loop with its crash tracked.  A record whose
`numero` field is 0 makes `atualizarEstatisticasGlobais` call
`adicionarAoCache(0, …)` (storage.c line 253), which performs the
out-of-bounds write `cacheContagemTx[(unsigned)0 - 1]` (line 195): the
process dies there, before `stats.totalBlocos` is assigned for that
record.  `none` models that death; for nonzero block numbers the step is
exactly the `reconstruirLoop` step. -/
def reconstruirLoopSeguro : List BlocoMinerado → Nat → Storage → Option Storage
  | [], _, s => some s
  | b :: rest, idCalculado, s =>
      if b.numero = 0 then none
      else reconstruirLoopSeguro rest (idCalculado + 1)
        { indexarRegistro idCalculado b s with totalBlocos := idCalculado }

/-- `inicializarStorage` on an existing file, with the reconstruction
crash tracked: `none` when replaying the file's whole records dies on a
zero `numero` field, otherwise the reconstructed engine. -/
def inicializarStorageSeguro (bytes : List Nat) : Option Storage :=
  let registros := (fileRecords bytes).map decodeRecord
  reconstruirLoopSeguro registros 1 { estadoInicial with arquivo := registros }

/-- Well-formedness of a record as produced by the C program: the byte
arrays have their declared lengths and the `u32` fields fit in 32 bits. -/
def WFRecord (b : BlocoMinerado) : Prop :=
  b.hash.length = 32 ∧ b.data.length = 184 ∧ b.hashAnterior.length = 32 ∧
    b.numero < 2 ^ 32 ∧ b.nonce < 2 ^ 32

instance : DecidablePred WFRecord := fun b => by
  unfold WFRecord; infer_instance

/-- Payload bytes are `unsigned char` values, hence below 256. -/
def WFData (b : BlocoMinerado) : Prop :=
  ∀ x ∈ b.data, x < 256

instance : DecidablePred WFData := fun b => by
  unfold WFData; infer_instance

/-- The balance total the conservation claims speak about: the sum of
`saldos` over the 256 addresses. -/
def somaSaldos (s : Storage) : Nat :=
  ((List.range NUM_ENDERECOS).map s.saldos).sum

/-! ### Structural lemmas about the append path -/

theorem indexarRegistro_arquivo (idBloco : Nat) (b : BlocoMinerado) (s : Storage) :
    (indexarRegistro idBloco b s).arquivo = s.arquivo := rfl

theorem indexarRegistro_buffer (idBloco : Nat) (b : BlocoMinerado) (s : Storage) :
    (indexarRegistro idBloco b s).buffer = s.buffer := rfl

theorem indexarRegistro_totalBlocos (idBloco : Nat) (b : BlocoMinerado) (s : Storage) :
    (indexarRegistro idBloco b s).totalBlocos = s.totalBlocos := rfl

theorem appendAll_nil : appendAll [] = estadoInicial := rfl

theorem appendAll_snoc (rs : List BlocoMinerado) (b : BlocoMinerado) :
    appendAll (rs ++ [b]) = adicionarBloco b (appendAll rs) := by
  simp [appendAll, List.foldl_append]

theorem adicionarBloco_totalBlocos (b : BlocoMinerado) (s : Storage) :
    (adicionarBloco b s).totalBlocos = s.totalBlocos + 1 := by
  unfold adicionarBloco flushBuffer
  dsimp only
  split
  · split <;> rfl
  · rfl

theorem adicionarBloco_arquivo_buffer (b : BlocoMinerado) (s : Storage) :
    ((adicionarBloco b s).arquivo = (if s.buffer.length + 1 = BUFFER_SIZE
        then s.arquivo ++ (s.buffer ++ [b]) else s.arquivo)) ∧
    ((adicionarBloco b s).buffer = (if s.buffer.length + 1 = BUFFER_SIZE
        then ([] : List BlocoMinerado) else s.buffer ++ [b])) := by
  by_cases hc : s.buffer.length + 1 = 16
  · simp [adicionarBloco, flushBuffer, indexarRegistro_buffer, indexarRegistro_arquivo,
      BUFFER_SIZE, hc]
  · simp [adicionarBloco, flushBuffer, indexarRegistro_buffer, indexarRegistro_arquivo,
      BUFFER_SIZE, hc]

/-- After `k` appends from empty: `totalBlocos = k`, the file holds the
first `16 * ⌊k/16⌋` records, the buffer the rest. -/
theorem appendAll_struct (rs : List BlocoMinerado) :
    (appendAll rs).totalBlocos = rs.length ∧
    (appendAll rs).arquivo = rs.take (16 * (rs.length / 16)) ∧
    (appendAll rs).buffer = rs.drop (16 * (rs.length / 16)) := by
  induction rs using List.reverseRecOn with
  | nil => exact ⟨rfl, rfl, rfl⟩
  | append_singleton rs b ih =>
    obtain ⟨htot, harq, hbuf⟩ := ih
    have hbl : (appendAll rs).buffer.length = rs.length - 16 * (rs.length / 16) := by
      rw [hbuf, List.length_drop]
    have hstep := adicionarBloco_arquivo_buffer b (appendAll rs)
    rw [appendAll_snoc]
    refine ⟨by rw [adicionarBloco_totalBlocos, htot, List.length_append]; rfl, ?_, ?_⟩
    · rw [hstep.1]
      by_cases hc : (appendAll rs).buffer.length + 1 = BUFFER_SIZE
      · rw [if_pos hc, harq, hbuf]
        have h16 : 16 * ((rs.length + 1) / 16) = rs.length + 1 := by
          unfold BUFFER_SIZE at hc; omega
        rw [List.length_append, List.length_cons, List.length_nil, h16,
          ← List.append_assoc, List.take_append_drop,
          List.take_of_length_le (by simp)]
      · rw [if_neg hc, harq]
        have h16 : 16 * ((rs.length + 1) / 16) = 16 * (rs.length / 16) := by
          unfold BUFFER_SIZE at hc; omega
        rw [List.length_append, List.length_cons, List.length_nil, h16,
          List.take_append_eq_append_take]
        have : 16 * (rs.length / 16) - rs.length = 0 := by omega
        rw [this, List.take_zero, List.append_nil]
    · rw [hstep.2]
      by_cases hc : (appendAll rs).buffer.length + 1 = BUFFER_SIZE
      · rw [if_pos hc]
        have h16 : 16 * ((rs.length + 1) / 16) = rs.length + 1 := by
          unfold BUFFER_SIZE at hc; omega
        rw [List.length_append, List.length_cons, List.length_nil, h16,
          List.drop_of_length_le (by simp)]
      · rw [if_neg hc, hbuf]
        have h16 : 16 * ((rs.length + 1) / 16) = 16 * (rs.length / 16) := by
          unfold BUFFER_SIZE at hc; omega
        rw [List.length_append, List.length_cons, List.length_nil, h16,
          List.drop_append_eq_append_drop]
        have : 16 * (rs.length / 16) - rs.length = 0 := by omega
        rw [this, List.drop_zero]

/-- The reader on a reachable state: any id in range resolves to the id-th
appended record, served from the file or from the buffer. -/
theorem ler_appendAll (rs : List BlocoMinerado) (i : Nat) (h1 : 1 ≤ i)
    (h2 : i ≤ rs.length) :
    lerBlocoPorId i (appendAll rs) = rs[i - 1]? := by
  obtain ⟨htot, harq, hbuf⟩ := appendAll_struct rs
  have hp : 16 * (rs.length / 16) ≤ rs.length := by omega
  unfold lerBlocoPorId
  rw [htot, hbuf, harq]
  rw [if_neg (by omega)]
  simp only [List.length_drop]
  by_cases hc : rs.length - (rs.length - 16 * (rs.length / 16)) < i
  · rw [if_pos hc, List.getElem?_drop]
    congr 1
    omega
  · rw [if_neg hc, List.getElem?_take]
    rw [if_pos (by omega)]

theorem ler_appendAll_some (rs : List BlocoMinerado) (i : Nat) (h1 : 1 ≤ i)
    (h2 : i ≤ rs.length) :
    lerBlocoPorId i (appendAll rs) = some (rs.getD (i - 1) default) := by
  rw [ler_appendAll rs i h1 h2, List.getD_eq_getElem?_getD,
    List.getElem?_eq_getElem (by omega)]
  rfl

theorem ler_appendAll_none (rs : List BlocoMinerado) (j : Nat)
    (h : j = 0 ∨ rs.length < j) :
    lerBlocoPorId j (appendAll rs) = none := by
  obtain ⟨htot, _, _⟩ := appendAll_struct rs
  unfold lerBlocoPorId
  rw [htot, if_pos (by omega)]

/-! ### Claim theorems -/

/-- C1: read round-trip.  After any sequence of appends from empty, every
id `i ∈ [1, total]` reads back exactly the i-th appended record (whether
it is still buffered or already persisted), while `id = 0` and ids above
`total_blocks` are rejected with failure. -/
theorem C1_read_round_trip (rs : List BlocoMinerado) (i : Nat)
    (h1 : 1 ≤ i) (h2 : i ≤ rs.length) :
    lerBlocoPorId i (appendAll rs) = some (rs.getD (i - 1) default) ∧
    lerBlocoPorId 0 (appendAll rs) = none ∧
    ∀ j, rs.length < j → lerBlocoPorId j (appendAll rs) = none := by
  refine ⟨ler_appendAll_some rs i h1 h2, ler_appendAll_none rs 0 (Or.inl rfl), ?_⟩
  intro j hj
  exact ler_appendAll_none rs j (Or.inr hj)

/-- C1 witness: a concrete three-append run, reading back the second
record (still in the buffer) and rejecting out-of-range ids. -/
theorem C1_read_round_trip_witness :
    lerBlocoPorId 2 (appendAll
        [⟨[1], 1, 10, [7], [0]⟩, ⟨[2], 2, 20, [9], [1]⟩, ⟨[3], 3, 10, [9], [2]⟩]) =
      some ⟨[2], 2, 20, [9], [1]⟩ ∧
    lerBlocoPorId 0 (appendAll
        [⟨[1], 1, 10, [7], [0]⟩, ⟨[2], 2, 20, [9], [1]⟩, ⟨[3], 3, 10, [9], [2]⟩]) = none := by
  have h := C1_read_round_trip
    [⟨[1], 1, 10, [7], [0]⟩, ⟨[2], 2, 20, [9], [1]⟩, ⟨[3], 3, 10, [9], [2]⟩] 2
    (by decide) (by decide)
  exact ⟨h.1, h.2.1⟩

/-- C6: buffered flush contract.  An append moves the record into the next
buffer slot; exactly on reaching 16 the whole buffer is written to the end
of the log and the buffer resets; hence after `k` appends from empty the
file holds exactly `16 * ⌊k/16⌋` records (and file ++ buffer is the whole
append sequence). -/
theorem C6_buffered_flush (rs : List BlocoMinerado) (b : BlocoMinerado) :
    (appendAll rs).arquivo.length = 16 * (rs.length / 16) ∧
    (appendAll rs).buffer.length = rs.length % 16 ∧
    (appendAll rs).arquivo ++ (appendAll rs).buffer = rs ∧
    ((adicionarBloco b (appendAll rs)).buffer =
      (if (appendAll rs).buffer.length + 1 = BUFFER_SIZE then []
       else (appendAll rs).buffer ++ [b])) ∧
    ((adicionarBloco b (appendAll rs)).arquivo =
      (if (appendAll rs).buffer.length + 1 = BUFFER_SIZE
       then (appendAll rs).arquivo ++ ((appendAll rs).buffer ++ [b])
       else (appendAll rs).arquivo)) := by
  obtain ⟨htot, harq, hbuf⟩ := appendAll_struct rs
  have hstep := adicionarBloco_arquivo_buffer b (appendAll rs)
  refine ⟨?_, ?_, ?_, hstep.2, hstep.1⟩
  · rw [harq, List.length_take]; omega
  · rw [hbuf, List.length_drop]; omega
  · rw [harq, hbuf, List.take_append_drop]

/-- C10: `getUltimoHash` on the empty engine is 32 zero bytes (the
all-zero `prev_hash` convention for block 1); on a non-empty engine it is
the hash of the record with id `totalBlocos`, i.e. of the last appended
record. -/
theorem C10_ultimo_hash :
    getUltimoHash estadoInicial = List.replicate 32 0 ∧
    ∀ rs : List BlocoMinerado, rs ≠ [] →
      getUltimoHash (appendAll rs) = (rs.getD (rs.length - 1) default).hash := by
  refine ⟨rfl, ?_⟩
  intro rs hne
  have hk : 1 ≤ rs.length := by
    cases rs with
    | nil => exact absurd rfl hne
    | cons a l => simp
  obtain ⟨htot, _, _⟩ := appendAll_struct rs
  unfold getUltimoHash
  rw [htot, if_neg (by omega), ler_appendAll_some rs rs.length hk le_rfl]

/-- C10 witness: one append; the last hash is that record's hash. -/
theorem C10_ultimo_hash_witness :
    getUltimoHash (appendAll [⟨[9, 9], 1, 5, [3], [0]⟩]) = [9, 9] := by
  exact (C10_ultimo_hash.2 [⟨[9, 9], 1, 5, [3], [0]⟩] (by decide))

/-- C8 counterexample: the nonce table does not have `2 ^ 19` buckets and
the bucket of nonce 1 is not the one a 19-bit upper shift would give; the
code uses `HASH_BITS = 14`. -/
theorem C8_counterexample :
    TAM_HASH ≠ 2 ^ 19 ∧ hashFunction 1 ≠ 1 * KNUTH_CONST % 2 ^ 32 / 2 ^ (32 - 19) := by
  decide

/-- C8 amended: the nonce hash table has `2 ^ 14 = 16384` buckets and the
bucket chosen on insert and on lookup is `(nonce * 2654435761) >> (32 - 14)`
in 32-bit unsigned arithmetic; that bucket is always in range. -/
theorem C8_hash_geometry :
    TAM_HASH = 2 ^ 14 ∧ TAM_HASH = 16384 ∧
    (∀ nonce, hashFunction nonce = nonce * KNUTH_CONST % 2 ^ 32 / 2 ^ (32 - 14)) ∧
    (∀ nonce, hashFunction nonce < TAM_HASH) ∧
    (∀ nonce idBloco s, (inserirNonce nonce idBloco s).tabelaNonce (hashFunction nonce) =
        (nonce, idBloco) :: s.tabelaNonce (hashFunction nonce)) ∧
    (∀ nonce s, listarBlocosPorNonce nonce s =
        ((s.tabelaNonce (hashFunction nonce)).filter (fun p => p.1 == nonce)).map
          (fun p => p.2)) := by
  refine ⟨rfl, rfl, fun _ => rfl, ?_, ?_, fun _ _ => rfl⟩
  · intro nonce
    have h : nonce * KNUTH_CONST % 2 ^ 32 < 2 ^ 32 := Nat.mod_lt _ (by norm_num)
    simp only [hashFunction, TAM_HASH, SHIFT_AMOUNT, HASH_BITS] at *
    omega
  · intro nonce idBloco s
    simp [inserirNonce, Function.update_same]

/-- C4: transaction-scan semantics at one loop step, and the genesis rule.
A positive-value triple is applied exactly when the origin balance covers
it (debiting the origin, crediting the destination, accumulating the
global value sum and the block's transaction count); an overspending
triple changes nothing and the scan continues; a `(0,0,0)` triple stops
the scan; a zero-value triple that is not `(0,0,0)` is skipped; a block
with `numero = 1` is never scanned and is cached with count 0, and for
`numero > 1` the cached count is the scan's count. -/
theorem C4_scan_semantics (data : List Nat) (is : List Nat) (i : Nat)
    (saldos : Nat → Nat) (valorTot tx : Nat) (b : BlocoMinerado) (s : Storage) :
    (0 < data.getD (i + 2) 0 ∧ data.getD (i + 2) 0 ≤ saldos (data.getD i 0) →
      scanTx data (i :: is) (saldos, valorTot, tx) =
        scanTx data is
          (Function.update
              (Function.update saldos (data.getD i 0)
                (saldos (data.getD i 0) - data.getD (i + 2) 0))
              (data.getD (i + 1) 0)
              (Function.update saldos (data.getD i 0)
                  (saldos (data.getD i 0) - data.getD (i + 2) 0) (data.getD (i + 1) 0) +
                data.getD (i + 2) 0),
            valorTot + data.getD (i + 2) 0, tx + 1)) ∧
    (0 < data.getD (i + 2) 0 ∧ saldos (data.getD i 0) < data.getD (i + 2) 0 →
      scanTx data (i :: is) (saldos, valorTot, tx) = scanTx data is (saldos, valorTot, tx)) ∧
    (data.getD i 0 = 0 ∧ data.getD (i + 1) 0 = 0 ∧ data.getD (i + 2) 0 = 0 →
      scanTx data (i :: is) (saldos, valorTot, tx) = (saldos, valorTot, tx)) ∧
    (data.getD (i + 2) 0 = 0 ∧ ¬(data.getD i 0 = 0 ∧ data.getD (i + 1) 0 = 0) →
      scanTx data (i :: is) (saldos, valorTot, tx) = scanTx data is (saldos, valorTot, tx)) ∧
    (b.numero = 1 →
      (atualizarEstatisticasGlobais b s).saldos =
          Function.update s.saldos (b.data.getD MINERADOR_OFFSET 0)
            (s.saldos (b.data.getD MINERADOR_OFFSET 0) + 50) ∧
      (atualizarEstatisticasGlobais b s).totalValorTransacionado =
          s.totalValorTransacionado ∧
      (atualizarEstatisticasGlobais b s).cache = adicionarAoCache s.cache b.numero 0) ∧
    (1 < b.numero →
      (atualizarEstatisticasGlobais b s).cache =
        adicionarAoCache s.cache b.numero
          (scanTx b.data txOffsets
              (Function.update s.saldos (b.data.getD MINERADOR_OFFSET 0)
                (s.saldos (b.data.getD MINERADOR_OFFSET 0) + 50),
                s.totalValorTransacionado, 0)).2.2) := by
  refine ⟨?_, ?_, ?_, ?_, ?_, ?_⟩
  · rintro ⟨h1, h2⟩
    simp only [scanTx]
    rw [if_pos h1, if_pos h2]
  · rintro ⟨h1, h2⟩
    simp only [scanTx]
    rw [if_pos h1, if_neg (by omega)]
  · rintro ⟨h1, h2, h3⟩
    simp only [scanTx]
    rw [if_neg (by omega), if_pos ⟨h1, h2⟩]
  · rintro ⟨h1, h2⟩
    simp only [scanTx]
    rw [if_neg (by omega), if_neg h2]
  · intro hg
    refine ⟨?_, ?_, ?_⟩ <;>
      simp [atualizarEstatisticasGlobais, contarEProcessar, hg]
  · intro hg
    simp [atualizarEstatisticasGlobais, contarEProcessar, hg]

/-- C4 witness: concrete instances of each scan rule and of the genesis
rule. -/
theorem C4_scan_semantics_witness :
    (scanTx [7, 9, 20] [0] ((fun _ => 50), 0, 0) =
      (Function.update (Function.update (fun _ => (50 : Nat)) 7 30) 9 70, 20, 1)) ∧
    (scanTx [7, 9, 20] [0] ((fun _ => 5), 0, 0) = ((fun _ => 5), 0, 0)) ∧
    (scanTx [0, 0, 0] [0] ((fun _ => 5), 3, 4) = ((fun _ => 5), 3, 4)) ∧
    (scanTx [1, 2, 0] [0] ((fun _ => 5), 3, 4) = ((fun _ => 5), 3, 4)) ∧
    (atualizarEstatisticasGlobais ⟨[], 1, 0, [3], []⟩ estadoInicial).cache =
      adicionarAoCache estadoInicial.cache 1 0 := by
  refine ⟨?_, ?_, ?_, ?_, ?_⟩
  · exact (C4_scan_semantics [7, 9, 20] [] 0 (fun _ => 50) 0 0 default estadoInicial).1
      ⟨by decide, by decide⟩
  · exact ((C4_scan_semantics [7, 9, 20] [] 0 (fun _ => 5) 0 0 default estadoInicial).2.1
      ⟨by decide, by decide⟩).trans rfl
  · exact (C4_scan_semantics [0, 0, 0] [] 0 (fun _ => 5) 3 4 default estadoInicial).2.2.1
      ⟨by decide, by decide, by decide⟩
  · exact ((C4_scan_semantics [1, 2, 0] [] 0 (fun _ => 5) 3 4 default estadoInicial).2.2.2.1
      ⟨by decide, by decide⟩).trans rfl
  · exact ((C4_scan_semantics [] [] 0 (fun _ => 0) 0 0 ⟨[], 1, 0, [3], []⟩
      estadoInicial).2.2.2.2.1 rfl).2.2

/-! ### The miner index -/

theorem adicionarBloco_indiceMinerador (b : BlocoMinerado) (s : Storage) :
    (adicionarBloco b s).indiceMinerador =
      Function.update s.indiceMinerador (b.data.getD MINERADOR_OFFSET 0)
        (s.indiceMinerador (b.data.getD MINERADOR_OFFSET 0) ++ [s.totalBlocos + 1]) := by
  unfold adicionarBloco flushBuffer indexarRegistro atualizarEstatisticasGlobais
    inserirMinerador inserirNonce
  dsimp only
  split
  · split <;> rfl
  · rfl

/-- The block ids whose payload miner byte is `a`, in ascending append
order — the list the specification says the miner index must equal. -/
def blocosDoMineradorEsperado (rs : List BlocoMinerado) (a : Nat) : List Nat :=
  (List.range rs.length).filterMap
    (fun j => if (rs.getD j default).data.getD MINERADOR_OFFSET 0 = a then some (j + 1)
              else none)

/-- C9: miner index chronological order.  After any append sequence, the
list of miner `a` read head to tail is exactly the ascending list of ids
of the blocks whose payload byte 183 is `a`. -/
theorem C9_miner_index (rs : List BlocoMinerado) (a : Nat) :
    (appendAll rs).indiceMinerador a = blocosDoMineradorEsperado rs a := by
  induction rs using List.reverseRecOn with
  | nil => rfl
  | append_singleton rs b ih =>
    rw [appendAll_snoc, adicionarBloco_indiceMinerador,
      (appendAll_struct rs).1]
    unfold blocosDoMineradorEsperado
    rw [List.length_append, List.length_cons, List.length_nil, List.range_succ,
      List.filterMap_append]
    have hpre : ∀ j, j < rs.length →
        (rs ++ [b]).getD j default = rs.getD j default := by
      intro j hj
      rw [List.getD_eq_getElem?_getD, List.getD_eq_getElem?_getD,
        List.getElem?_append_left hj]
    have hmap : (List.range rs.length).filterMap
        (fun j => if ((rs ++ [b]).getD j default).data.getD MINERADOR_OFFSET 0 = a
                  then some (j + 1) else none) = blocosDoMineradorEsperado rs a := by
      unfold blocosDoMineradorEsperado
      refine List.filterMap_congr ?_
      intro j hj
      rw [hpre j (List.mem_range.mp hj)]
    rw [hmap, ← ih]
    have hb : (rs ++ [b]).getD rs.length default = b := by
      rw [List.getD_eq_getElem?_getD, List.getElem?_append_right le_rfl]
      simp
    by_cases hm : b.data.getD MINERADOR_OFFSET 0 = a
    · rw [← hm, Function.update_same]
      simp [hb, hm]
    · have hm2 : a ≠ b.data.getD MINERADOR_OFFSET 0 := fun hh => hm hh.symm
      rw [Function.update_noteq hm2]
      have hm3 : ¬b.data[MINERADOR_OFFSET]?.getD 0 = a := by
        simpa [List.getD_eq_getElem?_getD] using hm
      simp [hb, hm, hm3]

/-! ### Balance conservation -/

/-- The sum of a table over the 256 addresses. -/
def somaFun (f : Nat → Nat) : Nat :=
  ((List.range NUM_ENDERECOS).map f).sum

theorem somaSaldos_eq (s : Storage) : somaSaldos s = somaFun s.saldos := rfl

theorem sum_map_update (n : Nat) (f : Nat → Nat) (i x : Nat) (h : i < n) :
    ((List.range n).map (Function.update f i x)).sum + f i
      = ((List.range n).map f).sum + x := by
  induction n with
  | zero => omega
  | succ n ih =>
    rw [List.range_succ, List.map_append, List.map_append, List.sum_append,
      List.sum_append]
    by_cases hi : i = n
    · subst hi
      have hmap : (List.range i).map (Function.update f i x) = (List.range i).map f := by
        refine List.map_congr_left ?_
        intro j hj
        exact Function.update_noteq (Nat.ne_of_lt (List.mem_range.mp hj)) x f
      rw [hmap]
      simp [Function.update_same]
      omega
    · have hup : Function.update f i x n = f n :=
        Function.update_noteq (fun hh => hi hh.symm) x f
      have := ih (by omega)
      simp only [List.map_cons, List.map_nil, List.sum_cons, List.sum_nil, hup]
      omega

theorem getD_lt_of_forall (data : List Nat) (hd : ∀ x ∈ data, x < 256) (i : Nat) :
    data.getD i 0 < 256 := by
  by_cases h : i < data.length
  · rw [List.getD_eq_getElem?_getD, List.getElem?_eq_getElem h]
    exact hd _ (List.getElem_mem h)
  · rw [List.getD_eq_getElem?_getD, List.getElem?_eq_none (by omega)]
    norm_num

/-- The transaction scan never changes the total balance: an applied
transfer debits and credits the same amount. -/
theorem scanTx_somaFun (data : List Nat) (hd : ∀ x ∈ data, x < 256) :
    ∀ (is : List Nat) (f : Nat → Nat) (vt tx : Nat),
      somaFun (scanTx data is (f, vt, tx)).1 = somaFun f := by
  intro is
  induction is with
  | nil => intro f vt tx; rfl
  | cons i rest ih =>
    intro f vt tx
    simp only [scanTx]
    by_cases h1 : 0 < data.getD (i + 2) 0
    · rw [if_pos h1]
      by_cases h2 : data.getD (i + 2) 0 ≤ f (data.getD i 0)
      · rw [if_pos h2, ih]
        have ho : data.getD i 0 < 256 := getD_lt_of_forall data hd i
        have hdst : data.getD (i + 1) 0 < 256 := getD_lt_of_forall data hd (i + 1)
        have e1 := sum_map_update 256 f (data.getD i 0)
          (f (data.getD i 0) - data.getD (i + 2) 0) ho
        have e2 := sum_map_update 256
          (Function.update f (data.getD i 0) (f (data.getD i 0) - data.getD (i + 2) 0))
          (data.getD (i + 1) 0)
          (Function.update f (data.getD i 0)
              (f (data.getD i 0) - data.getD (i + 2) 0) (data.getD (i + 1) 0) +
            data.getD (i + 2) 0) hdst
        simp only [somaFun, NUM_ENDERECOS] at *
        omega
      · rw [if_neg h2, ih]
    · rw [if_neg h1]
      by_cases h3 : data.getD i 0 = 0 ∧ data.getD (i + 1) 0 = 0
      · rw [if_pos h3]
      · rw [if_neg h3, ih]

theorem atualizar_saldos (b : BlocoMinerado) (s : Storage) :
    (atualizarEstatisticasGlobais b s).saldos =
      (contarEProcessar b
        (Function.update s.saldos (b.data.getD MINERADOR_OFFSET 0)
          (s.saldos (b.data.getD MINERADOR_OFFSET 0) + 50))
        s.totalValorTransacionado).1 := rfl

theorem adicionarBloco_saldos (b : BlocoMinerado) (s : Storage) :
    (adicionarBloco b s).saldos = (atualizarEstatisticasGlobais b s).saldos := by
  unfold adicionarBloco flushBuffer
  dsimp only
  split
  · split <;> rfl
  · rfl

/-- One append raises the total balance by exactly the 50-unit reward. -/
theorem atualizar_somaFun (b : BlocoMinerado) (s : Storage) (hd : ∀ x ∈ b.data, x < 256) :
    somaFun (atualizarEstatisticasGlobais b s).saldos = somaFun s.saldos + 50 := by
  rw [atualizar_saldos]
  have hm : b.data.getD MINERADOR_OFFSET 0 < 256 := getD_lt_of_forall _ hd _
  have hrew := sum_map_update 256 s.saldos (b.data.getD MINERADOR_OFFSET 0)
    (s.saldos (b.data.getD MINERADOR_OFFSET 0) + 50) hm
  unfold contarEProcessar
  split
  · rw [scanTx_somaFun b.data hd]
    simp only [somaFun, NUM_ENDERECOS] at *
    omega
  · simp only [somaFun, NUM_ENDERECOS] at *
    omega

/-- Concrete genesis block mined by address 7, used by the C3 run. -/
def blocoGen7 : BlocoMinerado :=
  ⟨List.replicate 32 0, 1, 0, List.replicate 183 0 ++ [7], List.replicate 32 0⟩

/-- Concrete second block mined by address 5 whose first payload triple is
the transfer `(7, 9, 20)`, which is applied (address 7 holds 50 from the
genesis reward). -/
def blocoTx20 : BlocoMinerado :=
  ⟨List.replicate 32 0, 2, 0, [7, 9, 20] ++ List.replicate 180 0 ++ [5], List.replicate 32 0⟩

/-- C3 counterexample: after appending `blocoGen7` then `blocoTx20` the
transfer of 20 is applied (`totalValorTransacionado = 20`), yet the balance
total is `100 = 50 * 2`, not `50 * 2 + 20` as the claim states: applied
transfers move balance, they do not add to it. -/
theorem C3_counterexample :
    ¬ (somaSaldos (appendAll [blocoGen7, blocoTx20]) =
        50 * (appendAll [blocoGen7, blocoTx20]).totalBlocos +
          (appendAll [blocoGen7, blocoTx20]).totalValorTransacionado) := by
  decide

/-- C3 amended: after every successful append with well-formed payload
bytes, the balance total over the 256 addresses equals `50 * total_blocks`
alone; applied transfer values are conserved inside the total (they
accumulate in `totalValorTransacionado`, not in the balance sum). -/
theorem C3_balance_conservation (rs : List BlocoMinerado) (h : ∀ b ∈ rs, WFData b) :
    somaSaldos (appendAll rs) = 50 * (appendAll rs).totalBlocos := by
  induction rs using List.reverseRecOn with
  | nil => rfl
  | append_singleton rs b ih =>
    have hb : WFData b := h b (by simp)
    have hrs : ∀ b' ∈ rs, WFData b' := fun b' hb' => h b' (by simp [hb'])
    rw [appendAll_snoc, somaSaldos_eq, adicionarBloco_saldos,
      atualizar_somaFun b (appendAll rs) hb, ← somaSaldos_eq, ih hrs,
      adicionarBloco_totalBlocos, (appendAll_struct rs).1]
    ring

/-- C3 amended witness: the same two-block run satisfies the amended
conservation law. -/
theorem C3_balance_conservation_witness :
    somaSaldos (appendAll [blocoGen7, blocoTx20]) =
      50 * (appendAll [blocoGen7, blocoTx20]).totalBlocos :=
  C3_balance_conservation [blocoGen7, blocoTx20] (by decide)

/-! ### The transaction-count cache and the max/min record lists -/

/-- The `txNoBloco` value a block contributes when it enters the system:
the applied-transaction count of its scan against the post-reward
balances (0 for the genesis block). -/
def txDoBloco (b : BlocoMinerado) (s : Storage) : Nat :=
  (contarEProcessar b
    (Function.update s.saldos (b.data.getD MINERADOR_OFFSET 0)
      (s.saldos (b.data.getD MINERADOR_OFFSET 0) + 50))
    s.totalValorTransacionado).2.2

theorem atualizar_cache (b : BlocoMinerado) (s : Storage) :
    (atualizarEstatisticasGlobais b s).cache =
      adicionarAoCache s.cache b.numero (txDoBloco b s) := rfl

theorem atualizar_maxTx (b : BlocoMinerado) (s : Storage) :
    (atualizarEstatisticasGlobais b s).maxTransacoesGlobal =
      (recordeMax (txDoBloco b s) b.numero s.maxTransacoesGlobal s.listaMaxTx).1 := rfl

theorem atualizar_listaMax (b : BlocoMinerado) (s : Storage) :
    (atualizarEstatisticasGlobais b s).listaMaxTx =
      (recordeMax (txDoBloco b s) b.numero s.maxTransacoesGlobal s.listaMaxTx).2 := rfl

theorem atualizar_minTx (b : BlocoMinerado) (s : Storage) :
    (atualizarEstatisticasGlobais b s).minTransacoesGlobal =
      (recordeMin (txDoBloco b s) b.numero s.minTransacoesGlobal s.listaMinTx).1 := rfl

theorem atualizar_listaMin (b : BlocoMinerado) (s : Storage) :
    (atualizarEstatisticasGlobais b s).listaMinTx =
      (recordeMin (txDoBloco b s) b.numero s.minTransacoesGlobal s.listaMinTx).2 := rfl

theorem adicionarBloco_cache (b : BlocoMinerado) (s : Storage) :
    (adicionarBloco b s).cache = adicionarAoCache s.cache b.numero (txDoBloco b s) := by
  unfold adicionarBloco flushBuffer
  dsimp only
  split
  · split <;> rfl
  · rfl

theorem adicionarBloco_maxTx (b : BlocoMinerado) (s : Storage) :
    (adicionarBloco b s).maxTransacoesGlobal =
      (recordeMax (txDoBloco b s) b.numero s.maxTransacoesGlobal s.listaMaxTx).1 := by
  unfold adicionarBloco flushBuffer
  dsimp only
  split
  · split <;> rfl
  · rfl

theorem adicionarBloco_listaMax (b : BlocoMinerado) (s : Storage) :
    (adicionarBloco b s).listaMaxTx =
      (recordeMax (txDoBloco b s) b.numero s.maxTransacoesGlobal s.listaMaxTx).2 := by
  unfold adicionarBloco flushBuffer
  dsimp only
  split
  · split <;> rfl
  · rfl

theorem adicionarBloco_minTx (b : BlocoMinerado) (s : Storage) :
    (adicionarBloco b s).minTransacoesGlobal =
      (recordeMin (txDoBloco b s) b.numero s.minTransacoesGlobal s.listaMinTx).1 := by
  unfold adicionarBloco flushBuffer
  dsimp only
  split
  · split <;> rfl
  · rfl

theorem adicionarBloco_listaMin (b : BlocoMinerado) (s : Storage) :
    (adicionarBloco b s).listaMinTx =
      (recordeMin (txDoBloco b s) b.numero s.minTransacoesGlobal s.listaMinTx).2 := by
  unfold adicionarBloco flushBuffer
  dsimp only
  split
  · split <;> rfl
  · rfl

/-- The scan applies at most one transaction per loop index. -/
theorem scanTx_tx_le (data : List Nat) :
    ∀ (is : List Nat) (f : Nat → Nat) (vt tx : Nat),
      (scanTx data is (f, vt, tx)).2.2 ≤ tx + is.length := by
  intro is
  induction is with
  | nil => intro f vt tx; simp [scanTx]
  | cons i rest ih =>
    intro f vt tx
    simp only [scanTx, List.length_cons]
    by_cases h1 : 0 < data.getD (i + 2) 0
    · rw [if_pos h1]
      by_cases h2 : data.getD (i + 2) 0 ≤ f (data.getD i 0)
      · rw [if_pos h2]
        refine le_trans (ih _ _ _) (by omega)
      · rw [if_neg h2]
        refine le_trans (ih _ _ _) (by omega)
    · rw [if_neg h1]
      by_cases h3 : data.getD i 0 = 0 ∧ data.getD (i + 1) 0 = 0
      · rw [if_pos h3]
        simp only
        omega
      · rw [if_neg h3]
        refine le_trans (ih _ _ _) (by omega)

/-- A block's count is at most `MAX_TRANSACOES = 61`: the loop has exactly
61 indices. -/
theorem txDoBloco_le (b : BlocoMinerado) (s : Storage) : txDoBloco b s ≤ 61 := by
  unfold txDoBloco contarEProcessar
  split
  · refine le_trans (scanTx_tx_le b.data txOffsets _ _ 0) ?_
    simp [txOffsets]
  · simp

theorem adicionarAoCache_snoc (c : List Nat) (t : Nat) :
    adicionarAoCache c (c.length + 1) t = c ++ [t] := by
  unfold adicionarAoCache
  rw [if_neg (by omega)]
  simp

theorem getD_append_left' {α : Type} (l₁ l₂ : List α) (i : Nat) (d : α)
    (h : i < l₁.length) : (l₁ ++ l₂).getD i d = l₁.getD i d := by
  rw [List.getD_eq_getElem?_getD, List.getD_eq_getElem?_getD,
    List.getElem?_append_left h]

theorem getD_append_length {α : Type} (l₁ : List α) (x d : α) :
    (l₁ ++ [x]).getD l₁.length d = x := by
  rw [List.getD_eq_getElem?_getD, List.getElem?_append_right le_rfl]
  simp

/-- The appended blocks carry the sequential numbers `1, 2, …` the
simulation gives them (`criarBlocoGenesis` and `criarProxBloco` number
blocks consecutively, and `adicionarBloco` is called once per block). -/
def NumerosSequenciais (rs : List BlocoMinerado) : Prop :=
  ∀ j, j < rs.length → (rs.getD j default).numero = j + 1

instance : DecidablePred NumerosSequenciais := fun rs => by
  unfold NumerosSequenciais; infer_instance

/-- The running max/min record invariant: after any append sequence with
sequential block numbers the cache holds one count per block, every count
is at most the running max, the max tie list holds exactly the blocks
attaining it, and symmetrically for the min over non-genesis blocks, with
the min still at its sentinel while no non-genesis block exists. -/
theorem recordes_inv (rs : List BlocoMinerado) (hnum : NumerosSequenciais rs) :
    (appendAll rs).cache.length = rs.length ∧
    (∀ i, i < rs.length → (appendAll rs).cache.getD i 0 ≤ 61) ∧
    (∀ i, i < rs.length →
      (((appendAll rs).cache.getD i 0 : Int) ≤ (appendAll rs).maxTransacoesGlobal)) ∧
    (∀ n, n ∈ (appendAll rs).listaMaxTx ↔
      (1 ≤ n ∧ n ≤ rs.length ∧
        (((appendAll rs).cache.getD (n - 1) 0 : Int) = (appendAll rs).maxTransacoesGlobal))) ∧
    (∀ i, 1 ≤ i → i < rs.length →
      ((appendAll rs).minTransacoesGlobal ≤ ((appendAll rs).cache.getD i 0 : Int))) ∧
    (∀ n, n ∈ (appendAll rs).listaMinTx ↔
      (2 ≤ n ∧ n ≤ rs.length ∧
        (((appendAll rs).cache.getD (n - 1) 0 : Int) = (appendAll rs).minTransacoesGlobal))) ∧
    (rs.length ≤ 1 → (appendAll rs).minTransacoesGlobal = 1000) := by
  induction rs using List.reverseRecOn with
  | nil =>
    refine ⟨rfl, ?_, ?_, ?_, ?_, ?_, ?_⟩
    · intro i hi; simp at hi
    · intro i hi; simp at hi
    · intro n
      constructor
      · intro hn; simp [appendAll_nil, estadoInicial] at hn
      · rintro ⟨h1, h2, _⟩; simp at h2; omega
    · intro i h1i hi; simp at hi
    · intro n
      constructor
      · intro hn; simp [appendAll_nil, estadoInicial] at hn
      · rintro ⟨h1, h2, _⟩; simp at h2; omega
    · intro _; rfl
  | append_singleton rs b ih =>
    have hnum' : NumerosSequenciais rs := by
      intro j hj
      have hj' : j < (rs ++ [b]).length := by simp; omega
      have := hnum j hj'
      rwa [getD_append_left' rs [b] j default hj] at this
    have hbnum : b.numero = rs.length + 1 := by
      have := hnum rs.length (by simp)
      rwa [getD_append_length] at this
    obtain ⟨ihLen, ihLe61, ihMaxLe, ihMaxMem, ihMinLe, ihMinMem, ihMinInit⟩ := ih hnum'
    set s := appendAll rs with hs
    set t := txDoBloco b s with htdef
    have hT : appendAll (rs ++ [b]) = adicionarBloco b s := appendAll_snoc rs b
    have hcache : (adicionarBloco b s).cache = s.cache ++ [t] := by
      rw [adicionarBloco_cache, hbnum, ← ihLen, adicionarAoCache_snoc]
    have hgetk : (s.cache ++ [t]).getD (rs.length + 1 - 1) 0 = t := by
      have : rs.length + 1 - 1 = s.cache.length := by omega
      rw [this, getD_append_length]
    have hgetlt : ∀ i, i < rs.length → (s.cache ++ [t]).getD i 0 = s.cache.getD i 0 := by
      intro i hi
      exact getD_append_left' _ _ _ _ (by omega)
    refine ⟨?_, ?_, ?_, ?_, ?_, ?_, ?_⟩
    · rw [hT, hcache]
      simp [ihLen]
    · intro i hi
      rw [hT, hcache]
      simp only [List.length_append, List.length_cons, List.length_nil] at hi
      rcases Nat.lt_or_ge i rs.length with hik | hik
      · rw [hgetlt i hik]
        exact ihLe61 i hik
      · have hieq : i = rs.length + 1 - 1 := by omega
        rw [hieq, hgetk]
        exact txDoBloco_le b s
    · -- every cached count is at most the running max
      intro i hi
      rw [hT, hcache, adicionarBloco_maxTx, hbnum]
      simp only [List.length_append, List.length_cons, List.length_nil] at hi
      unfold recordeMax
      by_cases hM1 : s.maxTransacoesGlobal < (t : Int)
      · rw [if_pos hM1]
        rcases Nat.lt_or_ge i rs.length with hik | hik
        · rw [hgetlt i hik]
          have := ihMaxLe i hik
          omega
        · have hieq : i = rs.length + 1 - 1 := by omega
          rw [hieq, hgetk]
      · rw [if_neg hM1]
        have hle : (t : Int) ≤ s.maxTransacoesGlobal := not_lt.mp hM1
        by_cases hM2 : (t : Int) = s.maxTransacoesGlobal ∧ 0 ≤ s.maxTransacoesGlobal
        · rw [if_pos hM2]
          rcases Nat.lt_or_ge i rs.length with hik | hik
          · rw [hgetlt i hik]
            exact ihMaxLe i hik
          · have hieq : i = rs.length + 1 - 1 := by omega
            rw [hieq, hgetk]
            exact hle
        · rw [if_neg hM2]
          rcases Nat.lt_or_ge i rs.length with hik | hik
          · rw [hgetlt i hik]
            exact ihMaxLe i hik
          · have hieq : i = rs.length + 1 - 1 := by omega
            rw [hieq, hgetk]
            exact hle
    · -- the max tie list holds exactly the blocks attaining the max
      intro n
      rw [hT, hcache, adicionarBloco_maxTx, adicionarBloco_listaMax, hbnum]
      simp only [List.length_append, List.length_cons, List.length_nil]
      unfold recordeMax
      by_cases hM1 : s.maxTransacoesGlobal < (t : Int)
      · rw [if_pos hM1]
        constructor
        · intro hn
          rcases List.mem_singleton.mp hn with rfl
          exact ⟨by omega, le_rfl, by rw [hgetk]⟩
        · rintro ⟨h1, h2, h3⟩
          by_cases hnk : n ≤ rs.length
          · exfalso
            have hlt : n - 1 < rs.length := by omega
            rw [hgetlt _ hlt] at h3
            have := ihMaxLe (n - 1) hlt
            omega
          · have : n = rs.length + 1 := by omega
            subst this
            exact List.mem_singleton.mpr rfl
      · rw [if_neg hM1]
        have hle : (t : Int) ≤ s.maxTransacoesGlobal := not_lt.mp hM1
        by_cases hM2 : (t : Int) = s.maxTransacoesGlobal ∧ 0 ≤ s.maxTransacoesGlobal
        · rw [if_pos hM2]
          constructor
          · intro hn
            rcases List.mem_cons.mp hn with rfl | hn'
            · exact ⟨by omega, le_rfl, by rw [hgetk]; exact hM2.1⟩
            · obtain ⟨g1, g2, g3⟩ := (ihMaxMem n).mp hn'
              refine ⟨g1, by omega, ?_⟩
              rw [hgetlt _ (by omega)]
              exact g3
          · rintro ⟨h1, h2, h3⟩
            by_cases hnk : n ≤ rs.length
            · refine List.mem_cons_of_mem _ ((ihMaxMem n).mpr ⟨h1, hnk, ?_⟩)
              rw [hgetlt _ (by omega)] at h3
              exact h3
            · have : n = rs.length + 1 := by omega
              subst this
              exact List.mem_cons_self _ _
        · rw [if_neg hM2]
          have htne : (t : Int) ≠ s.maxTransacoesGlobal := by
            intro he
            exact hM2 ⟨he, le_trans (Int.natCast_nonneg t) (le_of_eq he)⟩
          constructor
          · intro hn
            obtain ⟨g1, g2, g3⟩ := (ihMaxMem n).mp hn
            refine ⟨g1, by omega, ?_⟩
            rw [hgetlt _ (by omega)]
            exact g3
          · rintro ⟨h1, h2, h3⟩
            by_cases hnk : n ≤ rs.length
            · refine (ihMaxMem n).mpr ⟨h1, hnk, ?_⟩
              rw [hgetlt _ (by omega)] at h3
              exact h3
            · exfalso
              have : n = rs.length + 1 := by omega
              subst this
              rw [hgetk] at h3
              exact htne h3
    · -- every non-genesis cached count is at least the running min
      intro i h1i hi
      rw [hT, hcache, adicionarBloco_minTx, hbnum]
      simp only [List.length_append, List.length_cons, List.length_nil] at hi
      unfold recordeMin
      rw [if_pos (by omega : 1 < rs.length + 1)]
      by_cases hN1 : (t : Int) < s.minTransacoesGlobal
      · rw [if_pos hN1]
        rcases Nat.lt_or_ge i rs.length with hik | hik
        · rw [hgetlt i hik]
          have := ihMinLe i h1i hik
          omega
        · have hieq : i = rs.length + 1 - 1 := by omega
          rw [hieq, hgetk]
      · rw [if_neg hN1]
        have hge : s.minTransacoesGlobal ≤ (t : Int) := not_lt.mp hN1
        by_cases hN2 : (t : Int) = s.minTransacoesGlobal
        · rw [if_pos hN2]
          rcases Nat.lt_or_ge i rs.length with hik | hik
          · rw [hgetlt i hik]
            exact ihMinLe i h1i hik
          · have hieq : i = rs.length + 1 - 1 := by omega
            rw [hieq, hgetk]
            exact hge
        · rw [if_neg hN2]
          rcases Nat.lt_or_ge i rs.length with hik | hik
          · rw [hgetlt i hik]
            exact ihMinLe i h1i hik
          · have hieq : i = rs.length + 1 - 1 := by omega
            rw [hieq, hgetk]
            exact hge
    · -- the min tie list holds exactly the non-genesis blocks attaining the min
      intro n
      rw [hT, hcache, adicionarBloco_minTx, adicionarBloco_listaMin, hbnum]
      simp only [List.length_append, List.length_cons, List.length_nil]
      unfold recordeMin
      by_cases hk0 : rs.length = 0
      · rw [if_neg (by omega : ¬ 1 < rs.length + 1)]
        constructor
        · intro hn
          obtain ⟨g1, g2, _⟩ := (ihMinMem n).mp hn
          exact absurd (le_trans g1 g2) (by omega)
        · rintro ⟨h1, h2, _⟩
          exact absurd (le_trans h1 h2) (by omega)
      · rw [if_pos (by omega : 1 < rs.length + 1)]
        by_cases hN1 : (t : Int) < s.minTransacoesGlobal
        · rw [if_pos hN1]
          constructor
          · intro hn
            rcases List.mem_singleton.mp hn with rfl
            exact ⟨by omega, le_rfl, by rw [hgetk]⟩
          · rintro ⟨h1, h2, h3⟩
            by_cases hnk : n ≤ rs.length
            · exfalso
              have hlt : n - 1 < rs.length := by omega
              rw [hgetlt _ hlt] at h3
              have := ihMinLe (n - 1) (by omega) hlt
              omega
            · have : n = rs.length + 1 := by omega
              subst this
              exact List.mem_singleton.mpr rfl
        · rw [if_neg hN1]
          by_cases hN2 : (t : Int) = s.minTransacoesGlobal
          · rw [if_pos hN2]
            constructor
            · intro hn
              rcases List.mem_cons.mp hn with rfl | hn'
              · exact ⟨by omega, le_rfl, by rw [hgetk]; exact hN2⟩
              · obtain ⟨g1, g2, g3⟩ := (ihMinMem n).mp hn'
                refine ⟨g1, by omega, ?_⟩
                rw [hgetlt _ (by omega)]
                exact g3
            · rintro ⟨h1, h2, h3⟩
              by_cases hnk : n ≤ rs.length
              · refine List.mem_cons_of_mem _ ((ihMinMem n).mpr ⟨h1, hnk, ?_⟩)
                rw [hgetlt _ (by omega)] at h3
                exact h3
              · have : n = rs.length + 1 := by omega
                subst this
                exact List.mem_cons_self _ _
          · rw [if_neg hN2]
            constructor
            · intro hn
              obtain ⟨g1, g2, g3⟩ := (ihMinMem n).mp hn
              refine ⟨g1, by omega, ?_⟩
              rw [hgetlt _ (by omega)]
              exact g3
            · rintro ⟨h1, h2, h3⟩
              by_cases hnk : n ≤ rs.length
              · refine (ihMinMem n).mpr ⟨h1, hnk, ?_⟩
                rw [hgetlt _ (by omega)] at h3
                exact h3
              · exfalso
                have : n = rs.length + 1 := by omega
                subst this
                rw [hgetk] at h3
                exact hN2 h3
    · -- the sentinel survives while only the genesis block exists
      intro hlen
      simp only [List.length_append, List.length_cons, List.length_nil] at hlen
      have hk0 : rs.length = 0 := by omega
      rw [hT, adicionarBloco_minTx, hbnum]
      unfold recordeMin
      rw [if_neg (by omega : ¬ 1 < rs.length + 1)]
      exact ihMinInit (by omega)

/-- C5: tie-set invariant.  After any append sequence with sequential
block numbers, the max-tx tie list contains exactly the ids
`n ∈ [1, total_blocks]` whose cached transaction count equals the running
maximum (block 1 participates), and the min-tx tie list contains exactly
the ids `n ≥ 2` whose cached count equals the running minimum over
non-genesis blocks; the min record starts at the sentinel 1000 > 61 and
keeps it until a non-genesis block seeds it. -/
theorem C5_tie_sets (rs : List BlocoMinerado) (hnum : NumerosSequenciais rs) :
    (∀ n, n ∈ (appendAll rs).listaMaxTx ↔
      (1 ≤ n ∧ n ≤ (appendAll rs).totalBlocos ∧
        ((obterContagemDoCache (appendAll rs).cache n : Int) =
          (appendAll rs).maxTransacoesGlobal))) ∧
    (∀ n, n ∈ (appendAll rs).listaMinTx ↔
      (2 ≤ n ∧ n ≤ (appendAll rs).totalBlocos ∧
        ((obterContagemDoCache (appendAll rs).cache n : Int) =
          (appendAll rs).minTransacoesGlobal))) ∧
    estadoInicial.minTransacoesGlobal = 1000 ∧
    (61 : Int) < estadoInicial.minTransacoesGlobal ∧
    (rs.length ≤ 1 → (appendAll rs).minTransacoesGlobal = 1000) := by
  obtain ⟨ihLen, _, _, ihMaxMem, _, ihMinMem, ihMinInit⟩ := recordes_inv rs hnum
  have htot : (appendAll rs).totalBlocos = rs.length := (appendAll_struct rs).1
  have hobter : ∀ n, 1 ≤ n → n ≤ rs.length →
      obterContagemDoCache (appendAll rs).cache n = (appendAll rs).cache.getD (n - 1) 0 := by
    intro n h1 h2
    unfold obterContagemDoCache
    rw [if_neg (by omega)]
  refine ⟨?_, ?_, rfl, by norm_num [estadoInicial], ihMinInit⟩
  · intro n
    rw [htot]
    constructor
    · intro hn
      obtain ⟨g1, g2, g3⟩ := (ihMaxMem n).mp hn
      rw [hobter n g1 g2]
      exact ⟨g1, g2, g3⟩
    · rintro ⟨h1, h2, h3⟩
      rw [hobter n h1 h2] at h3
      exact (ihMaxMem n).mpr ⟨h1, h2, h3⟩
  · intro n
    rw [htot]
    constructor
    · intro hn
      obtain ⟨g1, g2, g3⟩ := (ihMinMem n).mp hn
      rw [hobter n (by omega) g2]
      exact ⟨g1, g2, g3⟩
    · rintro ⟨h1, h2, h3⟩
      rw [hobter n (by omega) h2] at h3
      exact (ihMinMem n).mpr ⟨h1, h2, h3⟩

/-- C5 witness: the concrete two-block run (genesis plus one block whose
only applied transaction gives it count 1) instantiates the tie-set
invariant. -/
theorem C5_tie_sets_witness :
    (1 ∈ (appendAll [blocoGen7, blocoTx20]).listaMaxTx ↔
      (1 ≤ 1 ∧ 1 ≤ (appendAll [blocoGen7, blocoTx20]).totalBlocos ∧
        ((obterContagemDoCache (appendAll [blocoGen7, blocoTx20]).cache 1 : Int) =
          (appendAll [blocoGen7, blocoTx20]).maxTransacoesGlobal))) ∧
    (2 ∈ (appendAll [blocoGen7, blocoTx20]).listaMinTx ↔
      (2 ≤ 2 ∧ 2 ≤ (appendAll [blocoGen7, blocoTx20]).totalBlocos ∧
        ((obterContagemDoCache (appendAll [blocoGen7, blocoTx20]).cache 2 : Int) =
          (appendAll [blocoGen7, blocoTx20]).minTransacoesGlobal))) := by
  have h := C5_tie_sets [blocoGen7, blocoTx20] (by decide)
  exact ⟨h.1 1, h.2.1 2⟩

/-! ### Reconstruction: codec and replay/append equivalence -/

theorem fileRecords_eq (bytes : List Nat) :
    fileRecords bytes =
      if 256 ≤ bytes.length then bytes.take 256 :: fileRecords (bytes.drop 256) else [] := by
  rw [fileRecords]
  by_cases hc : 256 ≤ bytes.length
  · rw [dif_pos hc, if_pos hc]
  · rw [dif_neg hc, if_neg hc]

theorem fileRecords_length (bytes : List Nat) :
    (fileRecords bytes).length = bytes.length / 256 := by
  have H : ∀ (n : Nat) (l : List Nat), l.length ≤ n →
      (fileRecords l).length = l.length / 256 := by
    intro n
    induction n with
    | zero =>
      intro l hl
      rw [fileRecords_eq, if_neg (by omega)]
      have : l.length = 0 := by omega
      simp [this]
    | succ n ih =>
      intro l hl
      rw [fileRecords_eq]
      by_cases hc : 256 ≤ l.length
      · rw [if_pos hc]
        simp only [List.length_cons]
        rw [ih (l.drop 256) (by simp only [List.length_drop]; omega)]
        simp only [List.length_drop]
        omega
      · rw [if_neg hc]
        simp only [List.length_nil]
        omega
  exact H bytes.length bytes le_rfl

theorem fileRecords_chunks (bytes : List Nat) :
    fileRecords bytes =
      (List.range (bytes.length / 256)).map
        (fun i => (bytes.drop (256 * i)).take 256) := by
  have H : ∀ (n : Nat) (l : List Nat), l.length ≤ n →
      fileRecords l =
        (List.range (l.length / 256)).map (fun i => (l.drop (256 * i)).take 256) := by
    intro n
    induction n with
    | zero =>
      intro l hl
      rw [fileRecords_eq, if_neg (by omega)]
      have : l.length = 0 := by omega
      simp [this]
    | succ n ih =>
      intro l hl
      rw [fileRecords_eq]
      by_cases hc : 256 ≤ l.length
      · rw [if_pos hc]
        have hdiv : l.length / 256 = (l.drop 256).length / 256 + 1 := by
          simp only [List.length_drop]
          omega
        rw [hdiv, List.range_succ_eq_map, List.map_cons, List.map_map,
          ih (l.drop 256) (by simp only [List.length_drop]; omega)]
        refine congrArg₂ List.cons (by simp) ?_
        refine List.map_congr_left ?_
        intro i _
        simp only [Function.comp_apply, List.drop_drop]
        refine congrArg (List.take 256) (congrArg (fun k => l.drop k) ?_)
        omega
      · rw [if_neg hc]
        have : l.length / 256 = 0 := by omega
        simp [this]
  exact H bytes.length bytes le_rfl

theorem bytesToU32_u32ToBytes (n : Nat) (h : n < 2 ^ 32) (l : List Nat) :
    bytesToU32 (u32ToBytes n ++ l) = n := by
  simp only [bytesToU32, u32ToBytes, List.cons_append, List.nil_append,
    List.getD_cons_zero, List.getD_cons_succ]
  omega

theorem encodeRecord_length (b : BlocoMinerado) (h : WFRecord b) :
    (encodeRecord b).length = 256 := by
  obtain ⟨hh, hd, hha, _, _⟩ := h
  simp [encodeRecord, u32ToBytes, hh, hd, hha]

/-- The 256-byte struct codec is lossless on well-formed records. -/
theorem decodeRecord_encodeRecord (b : BlocoMinerado) (h : WFRecord b) :
    decodeRecord (encodeRecord b) = b := by
  obtain ⟨hh, hd, hha, hnum, hnon⟩ := h
  have hu4 : ∀ m : Nat, (u32ToBytes m).length = 4 := fun m => rfl
  have e32 : (encodeRecord b).drop 32 =
      u32ToBytes b.numero ++ (u32ToBytes b.nonce ++ (b.data ++ b.hashAnterior)) := by
    unfold encodeRecord
    rw [← hh, List.drop_left]
  have e36 : (encodeRecord b).drop 36 =
      u32ToBytes b.nonce ++ (b.data ++ b.hashAnterior) := by
    have : (36 : Nat) = 32 + 4 := rfl
    rw [this, ← List.drop_drop, e32, ← hu4 b.numero, List.drop_left]
  have e40 : (encodeRecord b).drop 40 = b.data ++ b.hashAnterior := by
    have : (40 : Nat) = 36 + 4 := rfl
    rw [this, ← List.drop_drop, e36, ← hu4 b.nonce, List.drop_left]
  have e224 : (encodeRecord b).drop 224 = b.hashAnterior := by
    have : (224 : Nat) = 40 + 184 := rfl
    rw [this, ← List.drop_drop, e40, ← hd, List.drop_left]
  unfold decodeRecord
  cases b with
  | mk hsh num non dat hant =>
    simp only at hh hd hha hnum hnon e32 e36 e40 e224
    simp only [BlocoMinerado.mk.injEq]
    refine ⟨?_, ?_, ?_, ?_, ?_⟩
    · show (encodeRecord ⟨hsh, num, non, dat, hant⟩).take 32 = hsh
      unfold encodeRecord
      rw [← hh, List.take_left]
    · show bytesToU32 ((encodeRecord ⟨hsh, num, non, dat, hant⟩).drop 32) = num
      rw [e32]
      exact bytesToU32_u32ToBytes num hnum _
    · show bytesToU32 ((encodeRecord ⟨hsh, num, non, dat, hant⟩).drop 36) = non
      rw [e36]
      exact bytesToU32_u32ToBytes non hnon _
    · show ((encodeRecord ⟨hsh, num, non, dat, hant⟩).drop 40).take 184 = dat
      rw [e40, ← hd, List.take_left]
    · show ((encodeRecord ⟨hsh, num, non, dat, hant⟩).drop 224).take 32 = hant
      rw [e224]
      exact List.take_of_length_le (le_of_eq hha)

/-- A file holding exactly the encodings of `rs` chunks back into those
encodings. -/
theorem fileRecords_encodeFile (rs : List BlocoMinerado) (h : ∀ b ∈ rs, WFRecord b) :
    fileRecords (encodeFile rs) = rs.map encodeRecord := by
  induction rs with
  | nil => rw [fileRecords_eq]; simp [encodeFile]
  | cons b rest ih =>
    have hb : WFRecord b := h b (by simp)
    have hrest : ∀ b' ∈ rest, WFRecord b' := fun b' hb' => h b' (by simp [hb'])
    have hflat : encodeFile (b :: rest) = encodeRecord b ++ encodeFile rest := by
      simp [encodeFile]
    have hlen : (encodeRecord b).length = 256 := encodeRecord_length b hb
    rw [hflat, fileRecords_eq, if_pos (by simp [hlen]), ← hlen, List.take_left,
      List.drop_left, ih hrest]
    rfl

/-- Equality of the in-memory indices and aggregates (everything except
the file-content and buffer fields). -/
def EqIdx (s t : Storage) : Prop :=
  s.tabelaNonce = t.tabelaNonce ∧ s.indiceMinerador = t.indiceMinerador ∧
    s.saldos = t.saldos ∧ s.blocosMinerados = t.blocosMinerados ∧
    s.totalValorTransacionado = t.totalValorTransacionado ∧
    s.maiorSaldoAtual = t.maiorSaldoAtual ∧ s.maiorQtdMinerada = t.maiorQtdMinerada ∧
    s.maxTransacoesGlobal = t.maxTransacoesGlobal ∧ s.listaMaxTx = t.listaMaxTx ∧
    s.minTransacoesGlobal = t.minTransacoesGlobal ∧ s.listaMinTx = t.listaMinTx ∧
    s.cache = t.cache

theorem EqIdx_trans {s t u : Storage} (h1 : EqIdx s t) (h2 : EqIdx t u) : EqIdx s u := by
  unfold EqIdx at *
  obtain ⟨a1, a2, a3, a4, a5, a6, a7, a8, a9, a10, a11, a12⟩ := h1
  obtain ⟨b1, b2, b3, b4, b5, b6, b7, b8, b9, b10, b11, b12⟩ := h2
  exact ⟨a1.trans b1, a2.trans b2, a3.trans b3, a4.trans b4, a5.trans b5, a6.trans b6,
    a7.trans b7, a8.trans b8, a9.trans b9, a10.trans b10, a11.trans b11, a12.trans b12⟩

/-- The shared update path is a congruence for the index fields: it never
reads the file-content or buffer fields. -/
theorem indexarRegistro_congr (idBloco : Nat) (b : BlocoMinerado) (s t : Storage)
    (h : EqIdx s t) :
    EqIdx (indexarRegistro idBloco b s) (indexarRegistro idBloco b t) := by
  unfold EqIdx at *
  obtain ⟨h1, h2, h3, h4, h5, h6, h7, h8, h9, h10, h11, h12⟩ := h
  cases s; cases t
  simp only at h1 h2 h3 h4 h5 h6 h7 h8 h9 h10 h11 h12
  subst h1; subst h2; subst h3; subst h4; subst h5; subst h6
  subst h7; subst h8; subst h9; subst h10; subst h11; subst h12
  exact ⟨rfl, rfl, rfl, rfl, rfl, rfl, rfl, rfl, rfl, rfl, rfl, rfl⟩

/-- `adicionarBloco` changes the index fields exactly as the shared update
path does (the extra buffer placement and flush touch only the file and
buffer fields). -/
theorem adicionarBloco_eqIdx (b : BlocoMinerado) (t : Storage) :
    EqIdx (adicionarBloco b t) (indexarRegistro (t.totalBlocos + 1) b t) := by
  unfold EqIdx adicionarBloco flushBuffer
  dsimp only
  split
  · split
    · exact ⟨rfl, rfl, rfl, rfl, rfl, rfl, rfl, rfl, rfl, rfl, rfl, rfl⟩
    · exact ⟨rfl, rfl, rfl, rfl, rfl, rfl, rfl, rfl, rfl, rfl, rfl, rfl⟩
  · exact ⟨rfl, rfl, rfl, rfl, rfl, rfl, rfl, rfl, rfl, rfl, rfl, rfl⟩

theorem EqIdx_symm {s t : Storage} (h : EqIdx s t) : EqIdx t s := by
  unfold EqIdx at *
  obtain ⟨a1, a2, a3, a4, a5, a6, a7, a8, a9, a10, a11, a12⟩ := h
  exact ⟨a1.symm, a2.symm, a3.symm, a4.symm, a5.symm, a6.symm, a7.symm, a8.symm,
    a9.symm, a10.symm, a11.symm, a12.symm⟩

/-- Replaying records with `idCalculado = totalBlocos + 1` is the same
index computation as appending them. -/
theorem reconstruir_sim (rs : List BlocoMinerado) :
    ∀ (s t : Storage), EqIdx s t → s.totalBlocos = t.totalBlocos →
      EqIdx (reconstruirLoop rs (s.totalBlocos + 1) s)
          (List.foldl (fun u b => adicionarBloco b u) t rs) ∧
        (reconstruirLoop rs (s.totalBlocos + 1) s).totalBlocos =
          (List.foldl (fun u b => adicionarBloco b u) t rs).totalBlocos := by
  induction rs with
  | nil => exact fun s t h htot => ⟨h, htot⟩
  | cons b rest ih =>
    intro s t h htot
    have hmid : EqIdx { indexarRegistro (s.totalBlocos + 1) b s with
        totalBlocos := s.totalBlocos + 1 } (adicionarBloco b t) := by
      refine EqIdx_trans ?_ (EqIdx_symm (adicionarBloco_eqIdx b t))
      rw [htot]
      refine EqIdx_trans ?_ (indexarRegistro_congr (t.totalBlocos + 1) b s t h)
      rw [← htot]
      exact ⟨rfl, rfl, rfl, rfl, rfl, rfl, rfl, rfl, rfl, rfl, rfl, rfl⟩
    have hmidtot : ({ indexarRegistro (s.totalBlocos + 1) b s with
        totalBlocos := s.totalBlocos + 1 } : Storage).totalBlocos =
        (adicionarBloco b t).totalBlocos := by
      rw [adicionarBloco_totalBlocos]
      show s.totalBlocos + 1 = t.totalBlocos + 1
      omega
    have hrec := ih _ _ hmid hmidtot
    exact hrec

/-- Opening on a record list replays it with the same index results as
appending it to an empty engine, and counts all records. -/
theorem inicializar_sim (registros : List BlocoMinerado) :
    EqIdx (reconstruirIndicesDoDisco registros { estadoInicial with arquivo := registros })
        (appendAll registros) ∧
      (reconstruirIndicesDoDisco registros
          { estadoInicial with arquivo := registros }).totalBlocos = registros.length := by
  have h := reconstruir_sim registros { estadoInicial with arquivo := registros }
    estadoInicial ⟨rfl, rfl, rfl, rfl, rfl, rfl, rfl, rfl, rfl, rfl, rfl, rfl⟩ rfl
  exact ⟨h.1, h.2.trans (appendAll_struct registros).1⟩

theorem reconstruirLoop_arquivo (rs : List BlocoMinerado) :
    ∀ (id : Nat) (s : Storage), (reconstruirLoop rs id s).arquivo = s.arquivo := by
  induction rs with
  | nil => intro id s; rfl
  | cons b rest ih =>
    intro id s
    simp only [reconstruirLoop]
    rw [ih]
    exact indexarRegistro_arquivo id b s

/-- C2: reconstruction equivalence.  Opening an engine on a file that
contains exactly the encodings of the records `rs` rebuilds `totalBlocos`
and every index and aggregate — balances, mined counts, transaction-count
cache, max/min records with their tie lists, nonce index, miner index —
equal to the state reached by appending `rs` to a freshly opened empty
engine. -/
theorem C2_reconstruction_equivalence (rs : List BlocoMinerado)
    (h : ∀ b ∈ rs, WFRecord b) :
    (inicializarStorage (encodeFile rs)).totalBlocos = rs.length ∧
    (inicializarStorage (encodeFile rs)).saldos = (appendAll rs).saldos ∧
    (inicializarStorage (encodeFile rs)).blocosMinerados = (appendAll rs).blocosMinerados ∧
    (inicializarStorage (encodeFile rs)).cache = (appendAll rs).cache ∧
    (inicializarStorage (encodeFile rs)).maxTransacoesGlobal =
      (appendAll rs).maxTransacoesGlobal ∧
    (inicializarStorage (encodeFile rs)).listaMaxTx = (appendAll rs).listaMaxTx ∧
    (inicializarStorage (encodeFile rs)).minTransacoesGlobal =
      (appendAll rs).minTransacoesGlobal ∧
    (inicializarStorage (encodeFile rs)).listaMinTx = (appendAll rs).listaMinTx ∧
    (inicializarStorage (encodeFile rs)).tabelaNonce = (appendAll rs).tabelaNonce ∧
    (inicializarStorage (encodeFile rs)).indiceMinerador =
      (appendAll rs).indiceMinerador ∧
    (inicializarStorage (encodeFile rs)).totalValorTransacionado =
      (appendAll rs).totalValorTransacionado := by
  have hrecs : (fileRecords (encodeFile rs)).map decodeRecord = rs := by
    rw [fileRecords_encodeFile rs h, List.map_map]
    have : rs.map (decodeRecord ∘ encodeRecord) = rs.map id := by
      refine List.map_congr_left ?_
      intro b hb
      exact decodeRecord_encodeRecord b (h b hb)
    rw [this, List.map_id]
  have hini : inicializarStorage (encodeFile rs) =
      reconstruirIndicesDoDisco rs { estadoInicial with arquivo := rs } := by
    unfold inicializarStorage
    rw [hrecs]
  obtain ⟨⟨e1, e2, e3, e4, e5, e6, e7, e8, e9, e10, e11, e12⟩, etot⟩ := inicializar_sim rs
  rw [hini]
  exact ⟨etot, e3, e4, e12, e8, e9, e10, e11, e1, e2, e5⟩

/-- C2 witness: the concrete two-block chain round-trips through its
encoded file. -/
theorem C2_reconstruction_equivalence_witness :
    (inicializarStorage (encodeFile [blocoGen7, blocoTx20])).totalBlocos = 2 ∧
    (inicializarStorage (encodeFile [blocoGen7, blocoTx20])).saldos =
      (appendAll [blocoGen7, blocoTx20]).saldos := by
  have h := C2_reconstruction_equivalence [blocoGen7, blocoTx20] (by decide)
  exact ⟨h.1, h.2.1⟩

/-- A file whose whole records all carry nonzero block numbers replays
crash-free, and the crash-aware open agrees with the total one. -/
theorem reconstruirLoopSeguro_eq :
    ∀ (rs : List BlocoMinerado) (id : Nat) (s : Storage),
      (∀ b ∈ rs, b.numero ≠ 0) →
      reconstruirLoopSeguro rs id s = some (reconstruirLoop rs id s)
  | [], _, _, _ => rfl
  | b :: rest, id, s, h => by
      have hb : b.numero ≠ 0 := h b (by simp)
      simp only [reconstruirLoopSeguro, reconstruirLoop, if_neg hb]
      exact reconstruirLoopSeguro_eq rest (id + 1) _ (fun b' hb' => h b' (by simp [hb']))

theorem inicializarStorageSeguro_eq (bytes : List Nat)
    (hnz : ∀ reg ∈ (fileRecords bytes).map decodeRecord, reg.numero ≠ 0) :
    inicializarStorageSeguro bytes = some (inicializarStorage bytes) := by
  unfold inicializarStorageSeguro inicializarStorage reconstruirIndicesDoDisco
  exact reconstruirLoopSeguro_eq _ 1 _ hnz

/-- Chunking ignores a trailing fragment after whole encoded records. -/
theorem fileRecords_encodeFile_frag (rs : List BlocoMinerado) (frag : List Nat)
    (h : ∀ b ∈ rs, WFRecord b) (hf : frag.length < 256) :
    fileRecords (encodeFile rs ++ frag) = rs.map encodeRecord := by
  induction rs with
  | nil =>
    rw [fileRecords_eq, if_neg (by simp [encodeFile]; omega)]
    rfl
  | cons b rest ih =>
    have hb : WFRecord b := h b (by simp)
    have hrest : ∀ b' ∈ rest, WFRecord b' := fun b' hb' => h b' (by simp [hb'])
    have hflat : encodeFile (b :: rest) ++ frag = encodeRecord b ++ (encodeFile rest ++ frag) := by
      simp [encodeFile]
    have hlen : (encodeRecord b).length = 256 := encodeRecord_length b hb
    rw [hflat, fileRecords_eq, if_pos (by simp [hlen]), ← hlen, List.take_left,
      List.drop_left, ih hrest]
    rfl

/-- C7 counterexample: the 612-byte all-zero file has length
`2 * 256 + 100`, but its first whole record decodes with `numero = 0`, so
the real reconstruction dies on the out-of-bounds cache write
(`cacheContagemTx[(unsigned)0 - 1]`, storage.c line 195, reached via line
253) at the very first record, before `stats.totalBlocos` is ever
assigned: opening this file does not reconstruct its two whole records,
refuting the claim's universal over arbitrary files. -/
theorem C7_counterexample :
    (List.replicate 612 (0 : Nat)).length = 2 * 256 + 100 ∧
    (decodeRecord ((List.replicate 612 (0 : Nat)).take 256)).numero = 0 ∧
    inicializarStorageSeguro (List.replicate 612 0) = none := by
  refine ⟨by decide, by decide, ?_⟩
  unfold inicializarStorageSeguro
  dsimp only
  rw [fileRecords_eq, if_pos (by decide)]
  simp only [List.map_cons, reconstruirLoopSeguro]
  rw [if_pos (by decide)]

/-- C7 amended: partial-tail recovery for files whose whole records are
replayable.  On a file of `n * 256 + r` bytes with `0 < r < 256` whose
`n` whole 256-byte records all decode with a nonzero block-number field
(so the reconstruction's cache writes stay in bounds and the process
survives), opening completes, reconstructs exactly those `n` whole
records (`totalBlocos = n`), ignores the trailing fragment, and the next
append gets block id `n + 1`. -/
theorem C7_partial_tail (bytes : List Nat) (n r : Nat) (b : BlocoMinerado)
    (hlen : bytes.length = n * 256 + r) (hr0 : 0 < r) (hr : r < 256)
    (hnz : ∀ reg ∈ (fileRecords bytes).map decodeRecord, reg.numero ≠ 0) :
    inicializarStorageSeguro bytes = some (inicializarStorage bytes) ∧
    (inicializarStorage bytes).totalBlocos = n ∧
    (inicializarStorage bytes).arquivo =
      (List.range n).map (fun i => decodeRecord ((bytes.drop (256 * i)).take 256)) ∧
    (adicionarBloco b (inicializarStorage bytes)).totalBlocos = n + 1 := by
  have hdiv : bytes.length / 256 = n := by omega
  have hnum : ((fileRecords bytes).map decodeRecord).length = n := by
    rw [List.length_map, fileRecords_length, hdiv]
  have harq : (inicializarStorage bytes).arquivo =
      (List.range n).map (fun i => decodeRecord ((bytes.drop (256 * i)).take 256)) := by
    unfold inicializarStorage reconstruirIndicesDoDisco
    rw [reconstruirLoop_arquivo]
    show (fileRecords bytes).map decodeRecord = _
    rw [fileRecords_chunks, hdiv, List.map_map]
    rfl
  have htot : (inicializarStorage bytes).totalBlocos = n := by
    unfold inicializarStorage
    exact (inicializar_sim ((fileRecords bytes).map decodeRecord)).2.trans hnum
  exact ⟨inicializarStorageSeguro_eq bytes hnz, htot, harq,
    by rw [adicionarBloco_totalBlocos, htot]⟩

/-- A 612-byte file: the two encoded records of the chain
`[blocoGen7, blocoTx20]` followed by a 100-byte fragment. -/
def bytesC7 : List Nat := encodeFile [blocoGen7, blocoTx20] ++ List.replicate 100 0

/-- C7 amended witness: a file holding two genuine encoded records (block
numbers 1 and 2) plus a 100-byte fragment reconstructs crash-free,
counts exactly 2 records, and the next append gets id 3. -/
theorem C7_partial_tail_witness :
    inicializarStorageSeguro bytesC7 = some (inicializarStorage bytesC7) ∧
    (inicializarStorage bytesC7).totalBlocos = 2 ∧
    (adicionarBloco blocoGen7 (inicializarStorage bytesC7)).totalBlocos = 3 := by
  have hnz : ∀ reg ∈ (fileRecords bytesC7).map decodeRecord, reg.numero ≠ 0 := by
    unfold bytesC7
    rw [fileRecords_encodeFile_frag [blocoGen7, blocoTx20] (List.replicate 100 0)
      (by decide) (by decide)]
    decide
  have h := C7_partial_tail bytesC7 2 100 blocoGen7 (by decide) (by decide) (by decide) hnz
  exact ⟨h.1, h.2.1, h.2.2.2⟩

end BlockSim
